import Mathlib

/-!
Verification development for the mask-based acoustic beamforming module
(nt/speech_enhancement/beamformer.py).

Modelling conventions:
* Exact arithmetic stands in for IEEE double precision: real scalars are
  rationals, complex scalars are elements of an arbitrary commutative field
  with a star operation (instantiated at concrete fields for evaluation).
* numpy arrays with fixed axis roles are modelled as functions out of Fin
  types: an observation of shape (bins, sensors, frames) becomes
  Fin F -> Matrix (Fin D) (Fin T) k, a mask of shape (bins, frames) becomes
  Fin F -> Fin T -> Rat, and so on.
* numpy.linalg.solve is modelled by Cramer's rule (npsolve below); it agrees
  with the unique solution whenever the system matrix is invertible, which is
  exactly the regime in which numpy's solve returns instead of raising.
* Library eigensolvers (numpy.linalg.eigh, scipy.linalg.eigh, scipy.linalg.eig)
  are external to this repository and are modelled as explicit oracle
  parameters; the scipy solvers, which can raise LinAlgError, return Option.
* The in-place normalization that the source performs on a caller-supplied
  floating point mask is modelled by returning the final state of the mask
  array alongside the PSD.
-/

open scoped Matrix

section TypedModel

variable {𝕜 : Type} [Field 𝕜] [StarRing 𝕜]
variable {F D T K : ℕ}

/-- Embedding of get_power_spectral_density_matrix (beamformer.py, lines
31-96) for an observation of shape (bins, sensors, frames) and an optional
single-source mask of shape (bins, frames), with the default axis arguments
sensor_dim = source_dim = -2, time_dim = -1.  Under these arguments both
transpose permutations computed by the source are the identity, and a mask of
this shape takes the branch mask.ndim + 1 == observation.ndim, i.e. the mask
is expanded at axis -2 and broadcast against the observation.  The first
component of the result is the PSD; the second component is the state of the
caller's (floating point) mask array after the call: the source divides the
mask in place by np.maximum(np.sum(mask, axis=-1, keepdims=True), 1e-10).
(A boolean mask is first copied by np.asfarray, so only a floating point
mask aliases the caller's array.) -/
def get_power_spectral_density_matrix (X : Fin F → Matrix (Fin D) (Fin T) 𝕜)
    (mask : Option (Fin F → Fin T → ℚ)) :
    (Fin F → Matrix (Fin D) (Fin D) 𝕜) × Option (Fin F → Fin T → ℚ) :=
  match mask with
  | none =>
      (fun f => Matrix.of fun d e => (∑ t, X f d t * star (X f e t)) / (T : 𝕜),
       none)
  | some m =>
      let mNorm : Fin F → Fin T → ℚ :=
        fun f t => m f t / max (∑ u, m f u) (1 / 10 ^ 10)
      (fun f => Matrix.of fun d e =>
          ∑ t, (mNorm f t : 𝕜) * X f d t * star (X f e t),
       some mNorm)

/-- Embedding of get_power_spectral_density_matrix for a mask that carries its
own source axis: observation of shape (bins, sensors, frames), mask of shape
(bins, sources, frames), default axis arguments.  This is the else branch of
the source: the mask transpose permutation is again the identity, the
contraction is einsum kt,dt,et->kde per bin, and the final rollaxis step is
skipped because source_dim = -2 is not smaller than -2.  As above, the second
component is the state of the caller's float mask after the in-place
normalization. -/
def get_power_spectral_density_matrix_multi (X : Fin F → Matrix (Fin D) (Fin T) 𝕜)
    (m : Fin F → Fin K → Fin T → ℚ) :
    (Fin F → Fin K → Matrix (Fin D) (Fin D) 𝕜) × (Fin F → Fin K → Fin T → ℚ) :=
  let mNorm : Fin F → Fin K → Fin T → ℚ :=
    fun f k t => m f k t / max (∑ u, m f k u) (1 / 10 ^ 10)
  (fun f k => Matrix.of fun d e =>
      ∑ t, (mNorm f k t : 𝕜) * X f d t * star (X f e t),
   mNorm)

end TypedModel

section ClaimsPsd

variable {𝕜 : Type} [Field 𝕜] [StarRing 𝕜]
variable {F D T K : ℕ}

/-- Claim C5: for every complex observation tensor and every mask input
(no mask, a single-source real mask, or a multi-source real mask), the PSD
matrix returned by get_power_spectral_density_matrix equals its own conjugate
transpose on the last two axes; in exact arithmetic with a real-valued mask it
is exactly Hermitian. -/
theorem claim_C5_psd_hermitian (X : Fin F → Matrix (Fin D) (Fin T) 𝕜)
    (m : Fin F → Fin T → ℚ) (mm : Fin F → Fin K → Fin T → ℚ) :
    (∀ f, ((get_power_spectral_density_matrix X none).1 f)ᴴ
        = (get_power_spectral_density_matrix X none).1 f)
    ∧ (∀ f, ((get_power_spectral_density_matrix X (some m)).1 f)ᴴ
        = (get_power_spectral_density_matrix X (some m)).1 f)
    ∧ (∀ f k, ((get_power_spectral_density_matrix_multi X mm).1 f k)ᴴ
        = (get_power_spectral_density_matrix_multi X mm).1 f k) := by
  refine ⟨fun f => ?_, fun f => ?_, fun f k => ?_⟩
  · ext d e
    simp only [get_power_spectral_density_matrix, Matrix.conjTranspose_apply,
      Matrix.of_apply, star_div₀, star_sum, star_mul', star_star, star_natCast]
    congr 1
    apply Finset.sum_congr rfl
    intro t _
    ring
  · ext d e
    simp only [get_power_spectral_density_matrix, Matrix.conjTranspose_apply,
      Matrix.of_apply, star_sum, star_mul', star_star, star_ratCast]
    apply Finset.sum_congr rfl
    intro t _
    ring
  · ext d e
    simp only [get_power_spectral_density_matrix_multi,
      Matrix.conjTranspose_apply, Matrix.of_apply, star_sum, star_mul',
      star_star, star_ratCast]
    apply Finset.sum_congr rfl
    intro t _
    ring

/-- Claim C6: with a mask of all ones (matching the observation's non-sensor
axes), get_power_spectral_density_matrix returns the same PSD as with
mask = None; both reduce to the sample covariance scaled by one over the
number of frames. -/
theorem claim_C6_psd_ones_eq_none [CharZero 𝕜]
    (X : Fin F → Matrix (Fin D) (Fin T) 𝕜) (hT : 0 < T) :
    (get_power_spectral_density_matrix X (some fun _ _ => 1)).1
      = (get_power_spectral_density_matrix X none).1 := by
  funext f
  ext d e
  have hsum : (∑ _u : Fin T, (1 : ℚ)) = (T : ℚ) := by
    simp
  have hmax : max ((T : ℚ)) (1 / 10 ^ 10) = (T : ℚ) := by
    have h1 : (1 : ℚ) ≤ (T : ℚ) := by exact_mod_cast hT
    have : (1 / 10 ^ 10 : ℚ) ≤ (T : ℚ) := le_trans (by norm_num) h1
    exact max_eq_left this
  simp only [get_power_spectral_density_matrix, Matrix.of_apply, hsum, hmax]
  rw [Finset.sum_div]
  refine Finset.sum_congr rfl fun t _ => ?_
  have hc : ((1 / (T : ℚ) : ℚ) : 𝕜) = 1 / (T : 𝕜) := by
    rw [one_div, one_div, Rat.cast_inv, Rat.cast_natCast]
  rw [hc]
  ring

/-- Witness for claim C6 at a concrete input: two frames, one bin, one
sensor, rational scalars. -/
theorem claim_C6_witness :
    (get_power_spectral_density_matrix
        (fun _ : Fin 1 => Matrix.of fun _ : Fin 1 => fun t : Fin 2 => ((t : ℕ) : ℚ))
        (some fun _ _ => 1)).1
      = (get_power_spectral_density_matrix
        (fun _ : Fin 1 => Matrix.of fun _ : Fin 1 => fun t : Fin 2 => ((t : ℕ) : ℚ))
        none).1 :=
  claim_C6_psd_ones_eq_none _ (by decide)

end ClaimsPsd

section Solve

variable {𝕜 : Type} [Field 𝕜]
variable {n : ℕ}

/-- Determinant by Laplace expansion along the first column; unlike the
Leibniz-formula definition in the library this one evaluates by plain
unfolding on small concrete matrices. -/
def detExp : {m : ℕ} → Matrix (Fin m) (Fin m) 𝕜 → 𝕜
  | 0, _ => 1
  | m + 1, A =>
      ∑ i : Fin (m + 1),
        (-1) ^ (i : ℕ) * A i 0 * detExp (A.submatrix i.succAbove Fin.succ)

theorem detExp_eq_det : ∀ {m : ℕ} (A : Matrix (Fin m) (Fin m) 𝕜),
    detExp A = A.det
  | 0, A => by simp [detExp, Matrix.det_fin_zero]
  | m + 1, A => by
      rw [Matrix.det_succ_column_zero]
      simp only [detExp]
      exact Finset.sum_congr rfl fun i _ => by rw [detExp_eq_det]

/-- Model of numpy.linalg.solve (the solve imported at the top of
beamformer.py) via Cramer's rule: for an invertible system matrix this is the
unique solution of A x = b (mulVec_npsolve, npsolve_eq below); on a singular
matrix numpy raises LinAlgError, where this total model degenerates (the
inverted determinant vanishes).  All claims about solver results carry the
hypothesis that the solve succeeds, i.e. that the determinant is a unit. -/
def npsolve (A : Matrix (Fin n) (Fin n) 𝕜) (b : Fin n → 𝕜) : Fin n → 𝕜 :=
  fun i => (detExp A)⁻¹ * detExp (A.updateColumn i b)

theorem npsolve_eq_cramer (A : Matrix (Fin n) (Fin n) 𝕜) (b : Fin n → 𝕜) :
    npsolve A b = A.det⁻¹ • A.cramer b := by
  funext i
  simp [npsolve, detExp_eq_det, Matrix.cramer_apply]

theorem mulVec_npsolve (A : Matrix (Fin n) (Fin n) 𝕜) (b : Fin n → 𝕜)
    (h : IsUnit A.det) : A *ᵥ npsolve A b = b := by
  rw [npsolve_eq_cramer, Matrix.mulVec_smul, Matrix.mulVec_cramer, smul_smul,
    inv_mul_cancel₀ h.ne_zero, one_smul]

theorem npsolve_eq (A : Matrix (Fin n) (Fin n) 𝕜) (b x : Fin n → 𝕜)
    (h : IsUnit A.det) (hx : A *ᵥ x = b) : npsolve A b = x := by
  have h1 : A *ᵥ npsolve A b = A *ᵥ x := by rw [mulVec_npsolve A b h, hx]
  have h2 := congrArg (fun v => A⁻¹ *ᵥ v) h1
  simpa [Matrix.mulVec_mulVec, Matrix.nonsing_inv_mul A h] using h2

theorem npsolve_smul (A : Matrix (Fin n) (Fin n) 𝕜) (b : Fin n → 𝕜) (c : 𝕜)
    (hc : c ≠ 0) (h : IsUnit A.det) :
    npsolve (c • A) b = c⁻¹ • npsolve A b := by
  apply npsolve_eq
  · rw [Matrix.det_smul]
    exact (hc.isUnit.pow _).mul h
  · rw [Matrix.smul_mulVec_assoc, Matrix.mulVec_smul, smul_smul,
      mul_inv_cancel₀ hc, one_smul, mulVec_npsolve A b h]

end Solve

section Mvdr

variable {𝕜 : Type} [Field 𝕜] [StarRing 𝕜]
variable {F D : ℕ}

/-- The defensive symmetrization performed by get_mvdr_vector (line 157):
noise_psd_matrix = 0.5 * (noise_psd_matrix + conj(noise_psd_matrix
.swapaxes(-1, -2))), i.e. half the sum of the matrix and its conjugate
transpose. -/
def hermitize (M : Matrix (Fin D) (Fin D) 𝕜) : Matrix (Fin D) (Fin D) 𝕜 :=
  (1 / 2 : 𝕜) • (M + Mᴴ)

/-- numerator = solve(noise_psd_matrix, atf_vector) in get_mvdr_vector
(lines 142-163), per frequency bin, after the defensive symmetrization.
The while loop of the source only prepends broadcast axes to the noise PSD
to align batch dimensions and is the identity in this per-bin form. -/
def mvdrNumerator (atf : Fin F → Fin D → 𝕜)
    (N : Fin F → Matrix (Fin D) (Fin D) 𝕜) : Fin F → Fin D → 𝕜 :=
  fun f => npsolve (hermitize (N f)) (atf f)

/-- denominator = einsum d,d of conj(atf_vector) and the numerator. -/
def mvdrDenominator (atf : Fin F → Fin D → 𝕜)
    (N : Fin F → Matrix (Fin D) (Fin D) 𝕜) : Fin F → 𝕜 :=
  fun f => ∑ i, star (atf f i) * mvdrNumerator atf N f i

/-- Embedding of get_mvdr_vector (lines 142-163):
beamforming_vector = numerator / denominator, the denominator broadcast over
the sensor axis. -/
def get_mvdr_vector (atf : Fin F → Fin D → 𝕜)
    (N : Fin F → Matrix (Fin D) (Fin D) 𝕜) : Fin F → Fin D → 𝕜 :=
  fun f i => mvdrNumerator atf N f i / mvdrDenominator atf N f

/-- Claim C3: for every ATF vector and noise PSD matrix for which the linear
solve succeeds and the scalar denominator conj(a) . solve(N_hermitized, a) is
nonzero, the MVDR vector w = get_mvdr_vector(a, N) satisfies
conj(a) . w = 1 exactly (in the exact-arithmetic model), per frequency bin. -/
theorem claim_C3_mvdr_distortionless (atf : Fin F → Fin D → 𝕜)
    (N : Fin F → Matrix (Fin D) (Fin D) 𝕜) (f : Fin F)
    (hsolve : IsUnit (hermitize (N f)).det)
    (hden : mvdrDenominator atf N f ≠ 0) :
    ∑ i, star (atf f i) * get_mvdr_vector atf N f i = 1 := by
  have hsplit : ∑ i, star (atf f i) * get_mvdr_vector atf N f i
      = (∑ i, star (atf f i) * mvdrNumerator atf N f i)
          / mvdrDenominator atf N f := by
    rw [Finset.sum_div]
    apply Finset.sum_congr rfl
    intro i _
    simp only [get_mvdr_vector, mul_div_assoc]
  rw [hsplit]
  exact div_self hden

/-- Concrete data for exercising the MVDR claims: one bin, one sensor, the
rational field with its trivial star operation. -/
def atfEx : Fin 1 → Fin 1 → ℚ := fun _ _ => 2

def npsdEx : Fin 1 → Matrix (Fin 1) (Fin 1) ℚ := fun _ => Matrix.of fun _ _ => 4

/-- Witness for claim C3: its hypotheses hold and its conclusion evaluates at
the concrete input atfEx, npsdEx. -/
theorem claim_C3_witness :
    ∑ i, star (atfEx 0 i) * get_mvdr_vector atfEx npsdEx 0 i = 1 :=
  claim_C3_mvdr_distortionless atfEx npsdEx 0
    (isUnit_iff_ne_zero.mpr (by
      rw [← detExp_eq_det]
      norm_num [detExp, hermitize, npsdEx, Fin.sum_univ_one,
        Matrix.conjTranspose_apply, Matrix.of_apply]))
    (by
      norm_num [mvdrDenominator, mvdrNumerator, npsolve, detExp, hermitize,
        npsdEx, atfEx, Fin.sum_univ_one, Matrix.conjTranspose_apply,
        Matrix.of_apply, Matrix.updateColumn_apply])

theorem hermitize_smul (c : 𝕜) (hc : star c = c)
    (M : Matrix (Fin D) (Fin D) 𝕜) :
    hermitize (c • M) = c • hermitize M := by
  unfold hermitize
  rw [Matrix.conjTranspose_smul, hc, ← smul_add, smul_comm]

/-- Claim C10: the MVDR vector is invariant under scaling the noise PSD by a
nonzero real scalar (star c = c models a real scalar; every positive real is
of this form): the scale cancels between the solved numerator and the scalar
normalization denominator. -/
theorem claim_C10_mvdr_scale_invariant (atf : Fin F → Fin D → 𝕜)
    (N : Fin F → Matrix (Fin D) (Fin D) 𝕜) (f : Fin F) (c : 𝕜)
    (hc : c ≠ 0) (hcs : star c = c)
    (hsolve : IsUnit (hermitize (N f)).det)
    (hden : mvdrDenominator atf N f ≠ 0) :
    get_mvdr_vector atf (fun g => c • N g) f = get_mvdr_vector atf N f := by
  have hnum : mvdrNumerator atf (fun g => c • N g) f
      = fun i => c⁻¹ * mvdrNumerator atf N f i := by
    unfold mvdrNumerator
    rw [hermitize_smul c hcs, npsolve_smul _ _ c hc hsolve]
    rfl
  have hden2 : mvdrDenominator atf (fun g => c • N g) f
      = c⁻¹ * mvdrDenominator atf N f := by
    unfold mvdrDenominator
    rw [hnum, Finset.mul_sum]
    apply Finset.sum_congr rfl
    intro i _
    ring
  funext i
  show mvdrNumerator atf (fun g => c • N g) f i
        / mvdrDenominator atf (fun g => c • N g) f
      = mvdrNumerator atf N f i / mvdrDenominator atf N f
  rw [hden2, congrFun hnum i]
  exact mul_div_mul_left _ _ (inv_ne_zero hc)

/-- Witness for claim C10: its hypotheses hold and its conclusion evaluates
at the concrete input atfEx, npsdEx with scale 3. -/
theorem claim_C10_witness :
    get_mvdr_vector atfEx (fun g => (3 : ℚ) • npsdEx g) 0
      = get_mvdr_vector atfEx npsdEx 0 :=
  claim_C10_mvdr_scale_invariant atfEx npsdEx 0 3 (by norm_num) rfl
    (isUnit_iff_ne_zero.mpr (by
      rw [← detExp_eq_det]
      norm_num [detExp, hermitize, npsdEx, Fin.sum_univ_one,
        Matrix.conjTranspose_apply, Matrix.of_apply]))
    (by
      norm_num [mvdrDenominator, mvdrNumerator, npsolve, detExp, hermitize,
        npsdEx, atfEx, Fin.sum_univ_one, Matrix.conjTranspose_apply,
        Matrix.of_apply, Matrix.updateColumn_apply])

end Mvdr

section Lcmv

variable {𝕜 : Type} [Field 𝕜] [StarRing 𝕜]
variable {F D : ℕ}

/-- Phi_inverse_times_H in get_lcmv_vector (lines 248-266):
solve(np.expand_dims(noise_psd_matrix, axis=0), atf_vectors) broadcasts the
batched solve over targets and bins, solving noise_psd[f] x = atf[k, f] for
every target k and bin f. -/
def lcmvPhiInvH {Kt : ℕ} (atf : Fin Kt → Fin F → Fin D → 𝕜)
    (N : Fin F → Matrix (Fin D) (Fin D) 𝕜) : Fin Kt → Fin F → Fin D → 𝕜 :=
  fun k f => npsolve (N f) (atf k f)

/-- H_times_Phi_inverse_times_H in get_lcmv_vector: the targets-by-targets
Gram matrix einsum kd,ld->kl of conj(atf_vectors) and Phi_inverse_times_H,
per bin. -/
def lcmvGram {Kt : ℕ} (atf : Fin Kt → Fin F → Fin D → 𝕜)
    (N : Fin F → Matrix (Fin D) (Fin D) 𝕜) :
    Fin F → Matrix (Fin Kt) (Fin Kt) 𝕜 :=
  fun f => Matrix.of fun k l => ∑ d, star (atf k f d) * lcmvPhiInvH atf N l f d

/-- Embedding of get_lcmv_vector (lines 248-266): temp =
solve(H_times_Phi_inverse_times_H, response_vector) per bin, and
beamforming_vector = einsum kd,k->d of Phi_inverse_times_H and temp. -/
def get_lcmv_vector {Kt : ℕ} (atf : Fin Kt → Fin F → Fin D → 𝕜)
    (response : Fin Kt → 𝕜) (N : Fin F → Matrix (Fin D) (Fin D) 𝕜) :
    Fin F → Fin D → 𝕜 :=
  fun f d => ∑ k,
    lcmvPhiInvH atf N k f d * npsolve (lcmvGram atf N f) response k

/-- Claim C4: with response vector r = [1, 0, ..., 0] and both linear solves
succeeding, the LCMV vector w satisfies, per bin, conj(atf[0]) . w = 1 and
conj(atf[k]) . w = 0 for every k > 0 (exactly, in the exact-arithmetic
model). -/
theorem claim_C4_lcmv_constraints {Kt : ℕ}
    (atf : Fin (Kt + 1) → Fin F → Fin D → 𝕜)
    (N : Fin F → Matrix (Fin D) (Fin D) 𝕜) (f : Fin F)
    (hN : IsUnit (N f).det)
    (hG : IsUnit (lcmvGram atf N f).det) (k : Fin (Kt + 1)) :
    ∑ d, star (atf k f d)
        * get_lcmv_vector atf (fun j => if j = 0 then 1 else 0) N f d
      = if k = 0 then 1 else 0 := by
  set r : Fin (Kt + 1) → 𝕜 := fun j => if j = 0 then 1 else 0 with hr
  have key : ∑ d, star (atf k f d) * get_lcmv_vector atf r N f d
      = (lcmvGram atf N f *ᵥ npsolve (lcmvGram atf N f) r) k := by
    simp only [Matrix.mulVec, Matrix.dotProduct, lcmvGram, Matrix.of_apply,
      get_lcmv_vector]
    calc ∑ d, star (atf k f d)
            * ∑ l, lcmvPhiInvH atf N l f d * npsolve (lcmvGram atf N f) r l
        = ∑ d, ∑ l, star (atf k f d)
            * (lcmvPhiInvH atf N l f d * npsolve (lcmvGram atf N f) r l) := by
          exact Finset.sum_congr rfl fun d _ => Finset.mul_sum _ _ _
      _ = ∑ l, ∑ d, star (atf k f d)
            * (lcmvPhiInvH atf N l f d * npsolve (lcmvGram atf N f) r l) :=
          Finset.sum_comm
      _ = ∑ l, (∑ d, star (atf k f d) * lcmvPhiInvH atf N l f d)
            * npsolve (lcmvGram atf N f) r l := by
          refine Finset.sum_congr rfl fun l _ => ?_
          rw [Finset.sum_mul]
          exact Finset.sum_congr rfl fun d _ => by ring
  rw [key, mulVec_npsolve _ _ hG]

/-- Concrete data for exercising the LCMV claim: two targets, two sensors,
one bin, orthonormal ATFs and the identity noise PSD. -/
def atfLcmvEx : Fin 2 → Fin 1 → Fin 2 → ℚ := fun k _ d => if k = d then 1 else 0

def npsdLcmvEx : Fin 1 → Matrix (Fin 2) (Fin 2) ℚ := fun _ => 1

theorem npsdLcmvEx_det_isUnit : IsUnit (npsdLcmvEx 0).det := by
  rw [show (npsdLcmvEx 0).det = 1 from Matrix.det_one]
  exact isUnit_one

theorem lcmvGramEx_eq_one : lcmvGram atfLcmvEx npsdLcmvEx 0 = 1 := by
  have hP : ∀ l, lcmvPhiInvH atfLcmvEx npsdLcmvEx l 0 = atfLcmvEx l 0 :=
    fun l => npsolve_eq _ _ _ npsdLcmvEx_det_isUnit (Matrix.one_mulVec _)
  ext k l
  simp only [lcmvGram, Matrix.of_apply, hP]
  fin_cases k <;> fin_cases l <;>
    simp [atfLcmvEx, Fin.sum_univ_succ, Matrix.one_apply]

/-- Witness for claim C4: both constraints evaluate at the concrete input
atfLcmvEx, npsdLcmvEx (pass constraint at target 0, null constraint at
target 1). -/
theorem claim_C4_witness :
    (∑ d, star (atfLcmvEx 0 0 d)
        * get_lcmv_vector atfLcmvEx (fun j => if j = 0 then 1 else 0)
            npsdLcmvEx 0 d) = 1
    ∧ (∑ d, star (atfLcmvEx 1 0 d)
        * get_lcmv_vector atfLcmvEx (fun j => if j = 0 then 1 else 0)
            npsdLcmvEx 0 d) = 0 := by
  have hG : IsUnit (lcmvGram atfLcmvEx npsdLcmvEx 0).det := by
    rw [lcmvGramEx_eq_one, Matrix.det_one]
    exact isUnit_one
  have h0 := claim_C4_lcmv_constraints atfLcmvEx npsdLcmvEx 0
    npsdLcmvEx_det_isUnit hG 0
  have h1 := claim_C4_lcmv_constraints atfLcmvEx npsdLcmvEx 0
    npsdLcmvEx_det_isUnit hG 1
  constructor
  · simpa using h0
  · simpa using h1

end Lcmv

section MaskMutation

/-- Concrete data for claim C2: one bin, one sensor, one frame, float mask
value 2.0. -/
def obsMutEx : Fin 1 → Matrix (Fin 1) (Fin 1) ℚ := fun _ => Matrix.of fun _ _ => 1

def maskMutEx : Fin 1 → Fin 1 → ℚ := fun _ _ => 2

/-- Claim C2 is violated by the code: get_power_spectral_density_matrix
normalizes a caller-supplied floating point mask in place (mask /=
np.maximum(np.sum(mask, axis=-1, keepdims=True), 1e-10)).  With mask [[2.0]]
the caller's array holds [[1.0]] after the call: the post-call state of the
mask (second component of the model) differs from the mask passed in. -/
theorem claim_C2_mask_mutated_counterexample :
    (get_power_spectral_density_matrix obsMutEx (some maskMutEx)).2
      ≠ some maskMutEx := by
  intro h
  simp only [get_power_spectral_density_matrix, Option.some.injEq] at h
  have h1 := congrFun (congrFun h 0) 0
  have hmax : max (∑ u : Fin 1, maskMutEx 0 u) (1 / 10 ^ 10 : ℚ) = 2 := by
    rw [Fin.sum_univ_one]
    norm_num [maskMutEx]
  rw [hmax] at h1
  norm_num [maskMutEx] at h1

end MaskMutation

section Gev

/-- Complex rational values, modelling the complex floating point eigenvalues
returned by the library eigensolvers. -/
structure Cq where
  re : ℚ
  im : ℚ
deriving DecidableEq

/-- The strict lexicographic comparison (real part, then imaginary part)
that numpy uses when comparing complex values, e.g. inside np.argmax. -/
def cqLtB (a b : Cq) : Bool :=
  if a.re < b.re then true
  else if a.re = b.re then decide (a.im < b.im)
  else false

/-- np.argmax over complex eigenvalues: the index of the first occurrence of
the lexicographic maximum. -/
def npArgmax {n : ℕ} [NeZero n] (v : Fin n → Cq) : Fin n :=
  (List.finRange n).foldl (fun best i => if cqLtB (v best) (v i) then i else best) 0

/-- The result of one generalized eigensolver call: the eigenvalues (in the
complex value type np.argmax compares) and the matrix whose columns are the
corresponding eigenvectors. -/
def EigRes (D : ℕ) (α : Type) : Type := (Fin D → Cq) × Matrix (Fin D) (Fin D) α

/-- eigenvecs[:, np.argmax(eigenvals)]: the eigenvector column at the index
of the largest eigenvalue as returned by the solver. -/
def pickMaxEigvec {D : ℕ} [NeZero D] {α : Type} (p : EigRes D α) : Fin D → α :=
  fun i => p.2 i (npArgmax p.1)

/-- One loop iteration of get_gev_vector (lines 206-213): try
scipy.linalg.eigh on (target_psd[f], noise_psd[f]); if and only if it raises
a linear-algebra error (modelled by Option.none) fall back to
scipy.linalg.eig; in either case select the eigenvector at np.argmax of the
eigenvalues returned by the solver that was used.  none from the fallback
models an uncaught LinAlgError from scipy.linalg.eig. -/
def gevBin {D : ℕ} [NeZero D] {α : Type}
    (eighO eigO : Matrix (Fin D) (Fin D) α → Matrix (Fin D) (Fin D) α
      → Option (EigRes D α))
    (Tf Nf : Matrix (Fin D) (Fin D) α) : Option (Fin D → α) :=
  match eighO Tf Nf with
  | some p => some (pickMaxEigvec p)
  | none => (eigO Tf Nf).map pickMaxEigvec

/-- Embedding of get_gev_vector (lines 195-214): the per-bin solve with
fallback, iterated over the bins axis; an error left by both solvers in any
bin propagates out of the loop. -/
def get_gev_vector {F D : ℕ} [NeZero D] {α : Type}
    (eighO eigO : Matrix (Fin D) (Fin D) α → Matrix (Fin D) (Fin D) α
      → Option (EigRes D α))
    (Tpsd Npsd : Fin F → Matrix (Fin D) (Fin D) α) :
    Option (Fin F → Fin D → α) :=
  if h : ∀ f, (gevBin eighO eigO (Tpsd f) (Npsd f)).isSome then
    some fun f => (gevBin eighO eigO (Tpsd f) (Npsd f)).get (h f)
  else
    none

/-- Claim C7: whenever get_gev_vector returns a set of vectors, then per bin:
if the Hermitian-definite solver succeeded the returned vector is the
eigenvector at the argmax of its eigenvalues (the fallback was not used),
and if and only if it raised, the general solver was consulted and the
returned vector is the eigenvector at the argmax of the eigenvalues that
solver returned. -/
theorem claim_C7_gev_fallback {F D : ℕ} [NeZero D] {α : Type}
    (eighO eigO : Matrix (Fin D) (Fin D) α → Matrix (Fin D) (Fin D) α
      → Option (EigRes D α))
    (Tpsd Npsd : Fin F → Matrix (Fin D) (Fin D) α) (w : Fin F → Fin D → α)
    (hw : get_gev_vector eighO eigO Tpsd Npsd = some w) (f : Fin F) :
    (∀ p, eighO (Tpsd f) (Npsd f) = some p → w f = pickMaxEigvec p)
    ∧ (eighO (Tpsd f) (Npsd f) = none →
        ∃ p, eigO (Tpsd f) (Npsd f) = some p ∧ w f = pickMaxEigvec p) := by
  have hall : ∀ g, (gevBin eighO eigO (Tpsd g) (Npsd g)).isSome := by
    by_contra hn
    rw [get_gev_vector, dif_neg hn] at hw
    exact Option.noConfusion hw
  rw [get_gev_vector, dif_pos hall] at hw
  have hwf : w f = (gevBin eighO eigO (Tpsd f) (Npsd f)).get (hall f) :=
    (congrFun (Option.some.inj hw) f).symm
  constructor
  · intro p hp
    have hbin : gevBin eighO eigO (Tpsd f) (Npsd f) = some (pickMaxEigvec p) := by
      simp only [gevBin, hp]
    rw [hwf]
    exact Option.get_of_mem (hall f) (Option.mem_def.mpr hbin)
  · intro hnone
    rcases hq : eigO (Tpsd f) (Npsd f) with _ | q
    · exfalso
      have hs := hall f
      simp only [gevBin, hnone, hq, Option.map_none', Option.isSome_none] at hs
      exact Bool.noConfusion hs
    · refine ⟨q, rfl, ?_⟩
      have hbin : gevBin eighO eigO (Tpsd f) (Npsd f)
          = some (pickMaxEigvec q) := by
        simp only [gevBin, hnone, hq, Option.map_some']
      rw [hwf]
      exact Option.get_of_mem (hall f) (Option.mem_def.mpr hbin)

/-- Concrete data for exercising claim C7: one bin, one sensor, an eigh
oracle that succeeds with eigenvalue 5 and eigenvector [7], and an eig
oracle that is never consulted. -/
def eigResEx : EigRes 1 ℚ := (fun _ => ⟨5, 0⟩, Matrix.of fun _ _ => 7)

def eighOEx : Matrix (Fin 1) (Fin 1) ℚ → Matrix (Fin 1) (Fin 1) ℚ
    → Option (EigRes 1 ℚ) := fun _ _ => some eigResEx

def eigOEx : Matrix (Fin 1) (Fin 1) ℚ → Matrix (Fin 1) (Fin 1) ℚ
    → Option (EigRes 1 ℚ) := fun _ _ => none

def psdGevEx : Fin 1 → Matrix (Fin 1) (Fin 1) ℚ := fun _ => Matrix.of fun _ _ => 3

def wGevEx : Fin 1 → Fin 1 → ℚ := fun _ _ => 7

/-- Witness for claim C7: at the concrete oracles the returned vector for
bin 0 is the eigenvector selected from the successful primary solve. -/
theorem claim_C7_witness : wGevEx 0 = pickMaxEigvec eigResEx := by
  have hw : get_gev_vector eighOEx eigOEx psdGevEx psdGevEx = some wGevEx := rfl
  exact (claim_C7_gev_fallback eighOEx eigOEx psdGevEx psdGevEx wGevEx hw 0).1
    eigResEx rfl

end Gev

section Wrappers

variable {𝕜 : Type} [Field 𝕜] [StarRing 𝕜]
variable {F D T : ℕ}

/-- Embedding of apply_beamforming_vector (lines 282-289): einsum a,at->t of
conj(vector) and mix, collapsing the sensor axis, per bin. -/
def apply_beamforming_vector (vector : Fin F → Fin D → 𝕜)
    (mix : Fin F → Matrix (Fin D) (Fin T) 𝕜) : Fin F → Fin T → 𝕜 :=
  fun f t => ∑ d, star (vector f d) * mix f d t

/-- Embedding of blind_analytic_normalization (lines 269-279):
normalization[f] = abs(sqrt(v.conj . N . N . v)) / abs(v.conj . N . v) and
the vector is scaled by it per bin.  np.sqrt and np.abs on complex values are
external library functions, passed as the oracles sqrtO and absO (absO lands
in the rationals, which model the real floating point values). -/
def blind_analytic_normalization (sqrtO : 𝕜 → 𝕜) (absO : 𝕜 → ℚ)
    (vector : Fin F → Fin D → 𝕜) (N : Fin F → Matrix (Fin D) (Fin D) 𝕜) :
    Fin F → Fin D → 𝕜 :=
  fun f d =>
    vector f d *
      ((absO (sqrtO (∑ e, (∑ c, (∑ i, star (vector f i) * N f i c) * N f c e)
            * vector f e))
        / absO (∑ e, (∑ i, star (vector f i) * N f i e) * vector f e) : ℚ) : 𝕜)

/-- np.argmax over the real eigenvalues returned by np.linalg.eigh: the index
of the first occurrence of the maximum. -/
def npArgmaxQ {n : ℕ} [NeZero n] (v : Fin n → ℚ) : Fin n :=
  (List.finRange n).foldl (fun best i => if v best < v i then i else best) 0

/-- Embedding of get_pca_vector (lines 114-136).  np.linalg.eigh is an
external library eigensolver, passed as an oracle returning the (real)
eigenvalues and the matrix whose columns are the eigenvectors; the flattening
of the leading axes to one batch axis and the reshape back are the identity
in this bins-indexed form.  The result is
eigenvecs[i, :, argmax(eigenvals[i])] per independent index i. -/
def get_pca_vector [NeZero D]
    (eighO : Matrix (Fin D) (Fin D) 𝕜 → (Fin D → ℚ) × Matrix (Fin D) (Fin D) 𝕜)
    (psd : Fin F → Matrix (Fin D) (Fin D) 𝕜) : Fin F → Fin D → 𝕜 :=
  fun f i => (eighO (psd f)).2 i (npArgmaxQ (eighO (psd f)).1)

/-- np.clip(x, lo, hi) on scalars: min(max(x, lo), hi). -/
def npclip (x lo hi : ℚ) : ℚ := min (max x lo) hi

/-- numpy .T on a three-dimensional array reverses the axes; this maps the
caller-facing (frames, sensors, bins) mix to the internal (bins, sensors,
frames) layout. -/
def transpose3 (mix : Fin T → Fin D → Fin F → 𝕜) :
    Fin F → Matrix (Fin D) (Fin T) 𝕜 :=
  fun f => Matrix.of fun d t => mix t d f

/-- numpy .T on a two-dimensional array: swap the axes (used for the masks,
caller-facing (frames, bins), and for the output, internal (bins, frames)). -/
def transpose2 {α : Type} (a : Fin T → Fin F → α) : Fin F → Fin T → α :=
  fun f t => a t f

/-- The errors the orchestrators can raise: the explicit
ValueError('At least one mask needs to be present.') guarding the masks, and
numpy.linalg.LinAlgError escaping a failed solver. -/
inductive PyError : Type
  | valueErrorAtLeastOneMask
  | linAlgError
deriving DecidableEq

/-- The body of gev_wrapper_on_masks (lines 297-321) after the mask guard,
taking the already transposed mix and the two masks in internal (bins,
frames) layout. -/
def gevWrapperBody [NeZero D]
    (eighO eigO : Matrix (Fin D) (Fin D) 𝕜 → Matrix (Fin D) (Fin D) 𝕜
      → Option (EigRes D 𝕜))
    (sqrtO : 𝕜 → 𝕜) (absO : 𝕜 → ℚ)
    (mixT : Fin F → Matrix (Fin D) (Fin T) 𝕜)
    (noise_maskT target_maskT : Fin F → Fin T → ℚ)
    (normalization : Bool) : Except PyError (Fin T → Fin F → 𝕜) :=
  let target_psd := (get_power_spectral_density_matrix mixT (some target_maskT)).1
  let noise_psd := (get_power_spectral_density_matrix mixT (some noise_maskT)).1
  match get_gev_vector eighO eigO target_psd noise_psd with
  | none => Except.error PyError.linAlgError
  | some W0 =>
      let W := if normalization
        then blind_analytic_normalization sqrtO absO W0 noise_psd
        else W0
      Except.ok (transpose2 (apply_beamforming_vector W mixT))

/-- Embedding of gev_wrapper_on_masks (lines 292-321): guard that at least
one mask is present, transpose the caller-facing arrays, derive a missing
mask as np.clip(1 - other, 1e-6, 1), then estimate PSDs, solve, optionally
normalize, apply, and transpose back. -/
def gev_wrapper_on_masks [NeZero D]
    (eighO eigO : Matrix (Fin D) (Fin D) 𝕜 → Matrix (Fin D) (Fin D) 𝕜
      → Option (EigRes D 𝕜))
    (sqrtO : 𝕜 → 𝕜) (absO : 𝕜 → ℚ)
    (mix : Fin T → Fin D → Fin F → 𝕜)
    (noise_mask target_mask : Option (Fin T → Fin F → ℚ))
    (normalization : Bool) : Except PyError (Fin T → Fin F → 𝕜) :=
  match noise_mask, target_mask with
  | none, none => Except.error PyError.valueErrorAtLeastOneMask
  | some nm, none =>
      let nmT := transpose2 nm
      gevWrapperBody eighO eigO sqrtO absO (transpose3 mix) nmT
        (fun f t => npclip (1 - nmT f t) (1 / 10 ^ 6) 1) normalization
  | none, some tm =>
      let tmT := transpose2 tm
      gevWrapperBody eighO eigO sqrtO absO (transpose3 mix)
        (fun f t => npclip (1 - tmT f t) (1 / 10 ^ 6) 1) tmT normalization
  | some nm, some tm =>
      gevWrapperBody eighO eigO sqrtO absO (transpose3 mix) (transpose2 nm)
        (transpose2 tm) normalization

/-- The body of pca_wrapper_on_masks (lines 328-346) after the mask guard:
only the target mask is used; the PCA vector of the target PSD is applied. -/
def pcaWrapperBody [NeZero D]
    (eighO : Matrix (Fin D) (Fin D) 𝕜 → (Fin D → ℚ) × Matrix (Fin D) (Fin D) 𝕜)
    (mixT : Fin F → Matrix (Fin D) (Fin T) 𝕜)
    (target_maskT : Fin F → Fin T → ℚ) : Except PyError (Fin T → Fin F → 𝕜) :=
  let target_psd := (get_power_spectral_density_matrix mixT (some target_maskT)).1
  let W_pca := get_pca_vector eighO target_psd
  Except.ok (transpose2 (apply_beamforming_vector W_pca mixT))

/-- Embedding of pca_wrapper_on_masks (lines 324-346): guard that at least
one mask is present, transpose, derive the target mask from the noise mask
when missing (the noise mask is otherwise unused), and apply the PCA
pipeline. -/
def pca_wrapper_on_masks [NeZero D]
    (eighO : Matrix (Fin D) (Fin D) 𝕜 → (Fin D → ℚ) × Matrix (Fin D) (Fin D) 𝕜)
    (mix : Fin T → Fin D → Fin F → 𝕜)
    (noise_mask target_mask : Option (Fin T → Fin F → ℚ)) :
    Except PyError (Fin T → Fin F → 𝕜) :=
  match noise_mask, target_mask with
  | none, none => Except.error PyError.valueErrorAtLeastOneMask
  | some nm, none =>
      let nmT := transpose2 nm
      pcaWrapperBody eighO (transpose3 mix)
        (fun f t => npclip (1 - nmT f t) (1 / 10 ^ 6) 1)
  | _, some tm =>
      pcaWrapperBody eighO (transpose3 mix) (transpose2 tm)

/-- The body of pca_mvdr_wrapper_on_masks (lines 353-381) after the mask
guard: estimate both PSDs, optionally add regularization * identity to the
noise PSD, compute W_pca, compute W_mvdr from it, and then apply.  Note: the
source applies W_pca, not the computed W_mvdr (line 379) - the W_mvdr binding
is kept here, unused, exactly as in the source. -/
def pcaMvdrWrapperBody [NeZero D]
    (eighO : Matrix (Fin D) (Fin D) 𝕜 → (Fin D → ℚ) × Matrix (Fin D) (Fin D) 𝕜)
    (mixT : Fin F → Matrix (Fin D) (Fin T) 𝕜)
    (noise_maskT target_maskT : Fin F → Fin T → ℚ)
    (regularization : Option ℚ) : Except PyError (Fin T → Fin F → 𝕜) :=
  let target_psd := (get_power_spectral_density_matrix mixT (some target_maskT)).1
  let noise_psd0 := (get_power_spectral_density_matrix mixT (some noise_maskT)).1
  let noise_psd := match regularization with
    | some r => fun f => noise_psd0 f + (r : 𝕜) • (1 : Matrix (Fin D) (Fin D) 𝕜)
    | none => noise_psd0
  let W_pca := get_pca_vector eighO target_psd
  let _W_mvdr := get_mvdr_vector W_pca noise_psd
  Except.ok (transpose2 (apply_beamforming_vector W_pca mixT))

/-- Embedding of pca_mvdr_wrapper_on_masks (lines 349-381): guard that at
least one mask is present, transpose, derive a missing mask as
np.clip(1 - other, 1e-6, 1), then run the PCA-then-MVDR body. -/
def pca_mvdr_wrapper_on_masks [NeZero D]
    (eighO : Matrix (Fin D) (Fin D) 𝕜 → (Fin D → ℚ) × Matrix (Fin D) (Fin D) 𝕜)
    (mix : Fin T → Fin D → Fin F → 𝕜)
    (noise_mask target_mask : Option (Fin T → Fin F → ℚ))
    (regularization : Option ℚ) : Except PyError (Fin T → Fin F → 𝕜) :=
  match noise_mask, target_mask with
  | none, none => Except.error PyError.valueErrorAtLeastOneMask
  | some nm, none =>
      let nmT := transpose2 nm
      pcaMvdrWrapperBody eighO (transpose3 mix) nmT
        (fun f t => npclip (1 - nmT f t) (1 / 10 ^ 6) 1) regularization
  | none, some tm =>
      let tmT := transpose2 tm
      pcaMvdrWrapperBody eighO (transpose3 mix)
        (fun f t => npclip (1 - tmT f t) (1 / 10 ^ 6) 1) tmT regularization
  | some nm, some tm =>
      pcaMvdrWrapperBody eighO (transpose3 mix) (transpose2 nm)
        (transpose2 tm) regularization

/-- Claim C9: each of the three orchestrators raises
ValueError('At least one mask needs to be present.') when both noise_mask
and target_mask are None, for every mix and every other argument, before any
computation on the mix. -/
theorem claim_C9_wrappers_require_mask [NeZero D]
    (eighO eigO : Matrix (Fin D) (Fin D) 𝕜 → Matrix (Fin D) (Fin D) 𝕜
      → Option (EigRes D 𝕜))
    (sqrtO : 𝕜 → 𝕜) (absO : 𝕜 → ℚ)
    (peighO : Matrix (Fin D) (Fin D) 𝕜 → (Fin D → ℚ) × Matrix (Fin D) (Fin D) 𝕜)
    (mix : Fin T → Fin D → Fin F → 𝕜) (normalization : Bool)
    (regularization : Option ℚ) :
    gev_wrapper_on_masks eighO eigO sqrtO absO mix none none normalization
        = Except.error PyError.valueErrorAtLeastOneMask
    ∧ pca_wrapper_on_masks peighO mix none none
        = Except.error PyError.valueErrorAtLeastOneMask
    ∧ pca_mvdr_wrapper_on_masks peighO mix none none regularization
        = Except.error PyError.valueErrorAtLeastOneMask :=
  ⟨rfl, rfl, rfl⟩

/-- Witness for claim C9 at a concrete instantiation (rational scalars, one
frame, one sensor, one bin, trivial oracles). -/
def mixZeroEx : Fin 1 → Fin 1 → Fin 1 → ℚ := fun _ _ _ => 0

def peighOEx : Matrix (Fin 1) (Fin 1) ℚ → (Fin 1 → ℚ) × Matrix (Fin 1) (Fin 1) ℚ :=
  fun M => (fun _ => 0, M)

theorem claim_C9_witness :
    gev_wrapper_on_masks eighOEx eigOEx id (fun _ => 0) mixZeroEx
        none none false
        = Except.error PyError.valueErrorAtLeastOneMask
    ∧ pca_wrapper_on_masks peighOEx mixZeroEx none none
        = Except.error PyError.valueErrorAtLeastOneMask
    ∧ pca_mvdr_wrapper_on_masks peighOEx mixZeroEx none none none
        = Except.error PyError.valueErrorAtLeastOneMask :=
  claim_C9_wrappers_require_mask eighOEx eigOEx id (fun _ => 0) peighOEx
    mixZeroEx false none

end Wrappers

section PcaMvdrBug

/-- Concrete input for claim C1: one bin, two sensors, two frames.  In the
internal (bins, sensors, frames) layout the observation columns are (1,0)
at frame 0 and (1,1) at frame 1. -/
def mixC1 : Fin 2 → Fin 2 → Fin 1 → ℚ :=
  fun t d _ => if d = 0 then 1 else if t = 0 then 0 else 1

/-- Target mask concentrated on frame 0 (caller-facing (frames, bins)). -/
def tmaskC1 : Fin 2 → Fin 1 → ℚ := fun t _ => if t = 0 then 1 else 0

/-- Noise mask covering both frames. -/
def nmaskC1 : Fin 2 → Fin 1 → ℚ := fun _ _ => 1

/-- The np.linalg.eigh oracle used for claim C1: ascending eigenvalues (0, 1)
and eigenvector columns (0,1), (1,0).  This is a genuine eigendecomposition
of the target PSD arising from mixC1 and tmaskC1, which is
[[1, 0], [0, 0]]. -/
def peighC1 : Matrix (Fin 2) (Fin 2) ℚ → (Fin 2 → ℚ) × Matrix (Fin 2) (Fin 2) ℚ :=
  fun _ => (fun i : Fin 2 => if i = 0 then (0 : ℚ) else 1,
    Matrix.of fun i j : Fin 2 => if i = j then 0 else 1)

/-- The target PSD the wrapper computes at the C1 input. -/
def tpsdC1 : Fin 1 → Matrix (Fin 2) (Fin 2) ℚ :=
  (get_power_spectral_density_matrix (transpose3 mixC1) (some (transpose2 tmaskC1))).1

/-- The noise PSD the wrapper computes at the C1 input. -/
def npsdC1 : Fin 1 → Matrix (Fin 2) (Fin 2) ℚ :=
  (get_power_spectral_density_matrix (transpose3 mixC1) (some (transpose2 nmaskC1))).1

/-- The noise PSD evaluates to [[1, 1/2], [1/2, 1/2]]. -/
def NC1 : Matrix (Fin 2) (Fin 2) ℚ :=
  Matrix.of fun d e => if d = 0 ∧ e = 0 then 1 else 1 / 2

theorem tpsdC1_entries : tpsdC1 = fun _ =>
    Matrix.of fun d e => if d = 0 ∧ e = 0 then (1 : ℚ) else 0 := by
  funext f
  ext d e
  have hmax : max (∑ u : Fin 2, transpose2 tmaskC1 f u) (1 / 10 ^ 10 : ℚ) = 1 := by
    rw [Fin.sum_univ_two]
    norm_num [transpose2, tmaskC1]
  simp only [tpsdC1, get_power_spectral_density_matrix, Matrix.of_apply, hmax]
  rw [Fin.sum_univ_two]
  fin_cases d <;> fin_cases e <;>
    norm_num [transpose2, transpose3, tmaskC1, mixC1, Matrix.of_apply]

theorem npsdC1_entries : npsdC1 = fun _ => NC1 := by
  funext f
  ext d e
  have hmax : max (∑ u : Fin 2, transpose2 nmaskC1 f u) (1 / 10 ^ 10 : ℚ) = 2 := by
    rw [Fin.sum_univ_two]
    norm_num [transpose2, nmaskC1]
  simp only [npsdC1, get_power_spectral_density_matrix, Matrix.of_apply, hmax]
  rw [Fin.sum_univ_two]
  fin_cases d <;> fin_cases e <;>
    norm_num [transpose2, transpose3, nmaskC1, mixC1, NC1, Matrix.of_apply]

theorem npArgmaxC1 : npArgmaxQ (fun i : Fin 2 => if i = 0 then (0 : ℚ) else 1) = 1 := by
  norm_num [npArgmaxQ, List.finRange, List.range, List.range.loop, List.pmap,
    List.foldl]

theorem WpcaC1 : get_pca_vector peighC1 tpsdC1
    = fun _ d => if d = 0 then (1 : ℚ) else 0 := by
  funext f d
  simp only [get_pca_vector, peighC1, npArgmaxC1, Matrix.of_apply]
  fin_cases d <;> norm_num

theorem hermitizeNC1 : hermitize NC1 = NC1 := by
  ext d e
  simp only [hermitize, Matrix.smul_apply, Matrix.add_apply,
    Matrix.conjTranspose_apply, NC1, Matrix.of_apply]
  fin_cases d <;> fin_cases e <;> norm_num

theorem solveNC1 : npsolve NC1 (fun d : Fin 2 => if d = 0 then (1 : ℚ) else 0)
    = fun d => if d = 0 then 2 else -2 := by
  have hsa0 : (0 : Fin 2).succAbove 0 = 1 := by decide
  have hsa1 : (1 : Fin 2).succAbove 0 = 0 := by decide
  funext d
  fin_cases d <;>
  · simp only [npsolve, detExp, NC1, Fin.sum_univ_succ, Fin.sum_univ_zero,
      Matrix.submatrix_apply, Matrix.updateColumn_apply, Matrix.of_apply,
      hsa0, hsa1]
    norm_num

theorem WmvdrC1 : get_mvdr_vector (get_pca_vector peighC1 tpsdC1) npsdC1 0
    = fun d => if d = 0 then (1 : ℚ) else -1 := by
  have e1 : hermitize (npsdC1 0) = NC1 := by
    rw [npsdC1_entries]
    exact hermitizeNC1
  have e2 : get_pca_vector peighC1 tpsdC1 0
      = fun d : Fin 2 => if d = 0 then (1 : ℚ) else 0 := congrFun WpcaC1 0
  have hnum : mvdrNumerator (get_pca_vector peighC1 tpsdC1) npsdC1 0
      = fun d => if d = 0 then (2 : ℚ) else -2 := by
    show npsolve (hermitize (npsdC1 0)) (get_pca_vector peighC1 tpsdC1 0) = _
    rw [e1, e2, solveNC1]
  have hden : mvdrDenominator (get_pca_vector peighC1 tpsdC1) npsdC1 0 = 2 := by
    show (∑ i, star (get_pca_vector peighC1 tpsdC1 0 i)
        * mvdrNumerator (get_pca_vector peighC1 tpsdC1) npsdC1 0 i) = 2
    rw [Fin.sum_univ_two, congrFun hnum 0, congrFun hnum 1,
      congrFun e2 0, congrFun e2 1]
    norm_num
  funext d
  show mvdrNumerator (get_pca_vector peighC1 tpsdC1) npsdC1 0 d
      / mvdrDenominator (get_pca_vector peighC1 tpsdC1) npsdC1 0 = _
  rw [congrFun hnum d, hden]
  fin_cases d <;> norm_num

/-- Claim C1 is violated by the code (code bug): pca_mvdr_wrapper_on_masks
computes W_mvdr = get_mvdr_vector(W_pca, noise_psd) and then applies W_pca,
not W_mvdr, to the mix (line 379).  At the concrete input mixC1 with both
masks supplied and no regularization, the wrapper's output equals the
PCA-beamformed signal and differs from the signal obtained by applying the
MVDR vector derived in the pipeline, which is what the claim asserts the
wrapper returns. -/
theorem claim_C1_pca_mvdr_wrapper_counterexample :
    pca_mvdr_wrapper_on_masks peighC1 mixC1 (some nmaskC1) (some tmaskC1) none
      = Except.ok (transpose2 (apply_beamforming_vector
          (get_pca_vector peighC1 tpsdC1) (transpose3 mixC1)))
    ∧ pca_mvdr_wrapper_on_masks peighC1 mixC1 (some nmaskC1) (some tmaskC1) none
      ≠ Except.ok (transpose2 (apply_beamforming_vector
          (get_mvdr_vector (get_pca_vector peighC1 tpsdC1) npsdC1)
          (transpose3 mixC1))) := by
  refine ⟨rfl, fun h => ?_⟩
  have h0 : Except.ok (ε := PyError) (transpose2 (apply_beamforming_vector
        (get_pca_vector peighC1 tpsdC1) (transpose3 mixC1)))
      = Except.ok (transpose2 (apply_beamforming_vector
        (get_mvdr_vector (get_pca_vector peighC1 tpsdC1) npsdC1)
        (transpose3 mixC1))) := by
    rw [← h]
    rfl
  have h1 := congrFun (congrFun (Except.ok.inj h0) 1) 0
  have hl : transpose2 (apply_beamforming_vector
      (get_pca_vector peighC1 tpsdC1) (transpose3 mixC1)) 1 0 = 1 := by
    simp only [transpose2, apply_beamforming_vector, transpose3, WpcaC1,
      Matrix.of_apply, Fin.sum_univ_two]
    norm_num [mixC1]
  have hr : transpose2 (apply_beamforming_vector
      (get_mvdr_vector (get_pca_vector peighC1 tpsdC1) npsdC1)
      (transpose3 mixC1)) 1 0 = 0 := by
    simp only [transpose2, apply_beamforming_vector, transpose3, WmvdrC1,
      Matrix.of_apply, Fin.sum_univ_two]
    norm_num [mixC1]
  rw [hl, hr] at h1
  exact one_ne_zero h1

end PcaMvdrBug

section NdModel

/-- Addition of complex rational values (componentwise). -/
def Cq.add (a b : Cq) : Cq := ⟨a.re + b.re, a.im + b.im⟩

instance : Add Cq := ⟨Cq.add⟩

/-- Multiplication of complex rational values. -/
def Cq.mul (a b : Cq) : Cq :=
  ⟨a.re * b.re - a.im * b.im, a.re * b.im + a.im * b.re⟩

instance : Mul Cq := ⟨Cq.mul⟩

/-- Complex conjugation. -/
def Cq.conj (a : Cq) : Cq := ⟨a.re, -a.im⟩

/-- Complex division (by the squared modulus of the divisor). -/
def Cq.div (a b : Cq) : Cq :=
  ⟨(a.re * b.re + a.im * b.im) / (b.re ^ 2 + b.im ^ 2),
   (a.im * b.re - a.re * b.im) / (b.re ^ 2 + b.im ^ 2)⟩

instance : Div Cq := ⟨Cq.div⟩

instance : Zero Cq := ⟨⟨0, 0⟩⟩

/-- Embedding of a real (rational) value. -/
def Cq.ofRat (q : ℚ) : Cq := ⟨q, 0⟩

/-- np.maximum on complex values: the lexicographically larger value. -/
def cqMax (a b : Cq) : Cq := if cqLtB a b then b else a

/-- An untyped numpy ndarray over complex rational values: a shape together
with a total indexing function (reads outside the shape are arbitrary but
fixed, and are never produced by the operations below on valid indices). -/
structure NDArray where
  shape : List ℕ
  data : List ℕ → Cq

/-- Python's d % ndim - ndim (line 61): normalization of an axis index to
negative form. -/
def pyNegAxis (d : ℤ) (n : ℕ) : ℤ := d.emod n - n

/-- np.transpose by a permutation of nonnegative axis indices:
result.shape[k] = shape[ax[k]] and result[idx] = a[old] with
old[ax[k]] = idx[k]. -/
def NDArray.transposePos (a : NDArray) (ax : List ℕ) : NDArray :=
  { shape := ax.map fun j => a.shape.getD j 0,
    data := fun idx =>
      a.data ((List.range a.shape.length).map fun j => idx.getD (ax.indexOf j) 0) }

/-- np.transpose by a permutation of negative axis indices. -/
def NDArray.transposeNeg (a : NDArray) (axes : List ℤ) : NDArray :=
  a.transposePos (axes.map fun i => (i + (a.shape.length : ℤ)).toNat)

/-- np.expand_dims(a, axis) for a negative axis. -/
def NDArray.expandDims (a : NDArray) (axis : ℤ) : NDArray :=
  let p := (axis + (a.shape.length + 1 : ℕ)).toNat
  { shape := a.shape.insertIdx p 1,
    data := fun idx => a.data (idx.eraseIdx p) }

/-- np.sum(a, axis=axis, keepdims=True) for a negative axis. -/
def NDArray.sumKeep (a : NDArray) (axis : ℤ) : NDArray :=
  let j := (axis + a.shape.length).toNat
  { shape := a.shape.set j 1,
    data := fun idx =>
      (List.range (a.shape.getD j 0)).foldl (fun s t => s + a.data (idx.set j t)) 0 }

/-- Right-aligned numpy broadcasting of an index against an operand shape:
drop the leading axes the operand lacks and read index 0 along axes of
extent one. -/
def bcastIdx (shape idx : List ℕ) : List ℕ :=
  List.zipWith (fun s i => if s = 1 then 0 else i) shape
    (idx.drop (idx.length - shape.length))

/-- Elementwise product with numpy broadcasting (mask * observation,
line 83). -/
def NDArray.bmul (a b : NDArray) : NDArray :=
  { shape := List.zipWith max a.shape b.shape,
    data := fun idx => a.data (bcastIdx a.shape idx) * b.data (bcastIdx b.shape idx) }

/-- Elementwise quotient with numpy broadcasting (mask /= time sums,
line 79). -/
def NDArray.bdiv (a b : NDArray) : NDArray :=
  { shape := a.shape,
    data := fun idx => a.data idx / b.data (bcastIdx b.shape idx) }

/-- np.maximum(a, c) against a scalar. -/
def NDArray.maxScalar (a : NDArray) (c : Cq) : NDArray :=
  { shape := a.shape, data := fun idx => cqMax (a.data idx) c }

/-- np.conj. -/
def NDArray.conjA (a : NDArray) : NDArray :=
  { shape := a.shape, data := fun idx => Cq.conj (a.data idx) }

/-- a / scalar (psd /= observation.shape[-1], line 72). -/
def NDArray.divScalar (a : NDArray) (c : Cq) : NDArray :=
  { shape := a.shape, data := fun idx => a.data idx / c }

/-- einsum dt,et->de over shared leading batch axes (lines 69 and 83):
contract the trailing time axis of the two operands. -/
def einsumDE (A B : NDArray) : NDArray :=
  let n := A.shape.length
  let tdim := A.shape.getD (n - 1) 0
  { shape := A.shape.take (n - 2)
      ++ [A.shape.getD (n - 2) 0, B.shape.getD (n - 2) 0],
    data := fun idx =>
      let bidx := idx.take (n - 2)
      let d := idx.getD (n - 2) 0
      let e := idx.getD (n - 1) 0
      (List.range tdim).foldl
        (fun s t => s + A.data (bidx ++ [d, t]) * B.data (bidx ++ [e, t])) 0 }

/-- einsum kt,dt,et->kde over shared leading batch axes (line 90). -/
def einsumKDE (M A B : NDArray) : NDArray :=
  let n := A.shape.length
  let tdim := A.shape.getD (n - 1) 0
  { shape := A.shape.take (n - 2)
      ++ [M.shape.getD (n - 2) 0, A.shape.getD (n - 2) 0, B.shape.getD (n - 2) 0],
    data := fun idx =>
      let bidx := idx.take (n - 2)
      let k := idx.getD (n - 2) 0
      let d := idx.getD (n - 1) 0
      let e := idx.getD n 0
      (List.range tdim).foldl
        (fun s t => s + M.data (bidx ++ [k, t]) * A.data (bidx ++ [d, t])
          * B.data (bidx ++ [e, t])) 0 }

/-- np.rollaxis(a, axis, start): roll the given axis backwards until it lies
at the given position (numpy's reference semantics: decrement start when the
normalized axis precedes it, then remove the axis from the identity
permutation and reinsert it at start). -/
def NDArray.rollaxis (a : NDArray) (axis : ℤ) (start : ℕ) : NDArray :=
  let n := a.shape.length
  let ax := (axis + n).toNat
  let st := if ax < start then start - 1 else start
  if ax = st then a
  else a.transposePos (((List.range n).filter fun j => decide (j ≠ ax)).insertIdx st ax)

/-- Full embedding of get_power_spectral_density_matrix (lines 31-96) on
untyped ndarrays with arbitrary axis arguments, mirroring the source step by
step: normalize the axis indices to negative form; transpose the observation
to (..., sensors, frames); then branch on the mask.  Without a mask the
unweighted covariance is divided by the frame count.  With a mask, the mask
is first normalized along the time axis (floored at 1e-10); if it has one
dimension fewer than the observation it is expanded at axis -2 and broadcast,
otherwise it is transposed to (..., sources, frames), contracted with the
three-operand einsum, and the source axis of the result is rolled forward
when source_dim was given before position -2.  The dtype coercion of a
boolean mask (np.asfarray) is value-preserving and not modelled; only the
PSD value is returned here - the in-place normalization of the caller's mask
is modelled by the typed embedding above. -/
def get_power_spectral_density_matrix_nd (observation : NDArray)
    (mask : Option NDArray) (sensor_dim : ℤ := -2) (source_dim : ℤ := -2)
    (time_dim : ℤ := -1) : NDArray :=
  let nd := observation.shape.length
  let sd := pyNegAxis sensor_dim nd
  let srcd := pyNegAxis source_dim nd
  let td := pyNegAxis time_dim nd
  let obs := observation.transposeNeg
    ((((List.range nd).map fun i => (i : ℤ) - nd).filter
      fun i => decide (i ≠ sd ∧ i ≠ td)) ++ [sd, td])
  match mask with
  | none =>
      (einsumDE obs obs.conjA).divScalar
        (Cq.ofRat (obs.shape.getD (nd - 1) 0 : ℚ))
  | some mask0 =>
      let mask1 := mask0.bdiv ((mask0.sumKeep td).maxScalar (Cq.ofRat (1 / 10 ^ 10)))
      if mask1.shape.length + 1 = nd then
        einsumDE ((mask1.expandDims (-2)).bmul obs) obs.conjA
      else
        let maskT := mask1.transposeNeg
          ((((List.range nd).map fun i => (i : ℤ) - nd).filter
            fun i => decide (i ≠ srcd ∧ i ≠ td)) ++ [srcd, td])
        let psd := einsumKDE maskT obs obs.conjA
        if srcd < -2 then psd.rollaxis (-3) (source_dim.emod nd).toNat else psd

/-- Claim C8: with the default axis arguments, an observation of shape
(51, 6, 31) and a mask of shape (51, 31) produce a PSD of shape (51, 6, 6),
and a mask of shape (51, 2, 31) (source axis of size 2 before the time axis)
produces shape (51, 2, 6, 6), for every data content of the arrays. -/
theorem claim_C8_psd_shapes (dX dM2 dM3 : List ℕ → Cq) :
    (get_power_spectral_density_matrix_nd ⟨[51, 6, 31], dX⟩
        (some ⟨[51, 31], dM2⟩)).shape = [51, 6, 6]
    ∧ (get_power_spectral_density_matrix_nd ⟨[51, 6, 31], dX⟩
        (some ⟨[51, 2, 31], dM3⟩)).shape = [51, 2, 6, 6] := by
  constructor <;> rfl

end NdModel
